import Mathlib

/-!
Verification of the proxpi caching package-index proxy.

The Python source (src/proxpi/_cache.py and src/proxpi/server.py) is shallowly
embedded below.  Python dictionaries are modelled as association lists with
insertion-order semantics (overwrite keeps the position of an existing key,
a fresh key is appended); Python strings that are only compared for equality
are modelled as Lean String, while strings that are sliced or split
character-by-character are modelled as List Char (Python slicing with a
negative index clamps exactly like truncated Nat subtraction).  Exceptions are
modelled with Option/Except: a value of none (or Except.error) marks the
states in which the Python code raises.
-/

namespace Proxpi

/-- Association-list lookup, modelling Python dict indexing and dict.get. -/
def alookup {α β : Type} [DecidableEq α] : List (α × β) → α → Option β
  | [], _ => none
  | (k, v) :: rest, x => if x = k then some v else alookup rest x

/-- Association-list insertion with Python dict semantics: an existing key is
overwritten in place, a new key is appended at the end. -/
def ainsert {α β : Type} [DecidableEq α] : List (α × β) → α → β → List (α × β)
  | [], k, v => [(k, v)]
  | (k₂, v₂) :: rest, k, v =>
    if k₂ = k then (k, v) :: rest else (k₂, v₂) :: ainsert rest k v

/-- Association-list removal, modelling Python dict.pop for maps whose keys
are unique. -/
def aremove {α β : Type} [DecidableEq α] (m : List (α × β)) (k : α) :
    List (α × β) :=
  m.filter fun kv => decide (kv.1 ≠ k)

/-! ### C1: yanked parsing (FileFromHTML.yanked, File.to_json_response)

Source: src/proxpi/_cache.py lines 109-126 and 187-189.  The abstract
property File.yanked is declared with type Union[bool, str, None]; the
value None makes to_json_response omit the "yanked" key. -/

/-- Value of the File.yanked property: a Python bool, a reason string, or
Python None. -/
inductive YankedValue : Type
  | boolean (b : Bool)
  | strval (s : String)
  | null
deriving DecidableEq

/-- Embeds FileFromHTML.yanked (src/proxpi/_cache.py line 189):
the Python expression is `self.attributes.get("data-yanked") is not None`,
a bare presence test returning a Python bool. -/
def fileFromHTML_yanked (attributes : List (String × String)) : YankedValue :=
  .boolean (alookup attributes "data-yanked").isSome

/-- Embeds the yanked part of File.to_json_response (src/proxpi/_cache.py
lines 124-125): `if self.yanked is not None: data["yanked"] = self.yanked`.
The result is the value stored under the "yanked" JSON key, or none when the
key is omitted. -/
def to_json_yanked_entry : YankedValue → Option YankedValue
  | .null => none
  | v => some v

/-- Modelled from the spec (the claimed behaviour, for comparison):
yanked is true iff the attribute exists with empty value, the string value
if non-empty, absent otherwise. -/
def specFile_yanked (attributes : List (String × String)) : YankedValue :=
  match alookup attributes "data-yanked" with
  | none => .null
  | some "" => .boolean true
  | some s => .strval s

/-! ### C8: URL-fragment hash parsing (FileFromHTML._parse_hash)

Source: src/proxpi/_cache.py lines 191-196. -/

/-- Embeds Python str.split(sep) with no maxsplit: every occurrence of the
separator starts a new part, so the result has count(sep) + 1 parts. -/
def pySplit (sep : Char) : List Char → List (List Char)
  | [] => [[]]
  | c :: rest =>
    match pySplit sep rest with
    | [] => []
    | cur :: parts =>
      if c = sep then [] :: cur :: parts else (c :: cur) :: parts

/-- Embeds FileFromHTML._parse_hash: returns the empty dict when the string
has no "=", otherwise performs `hash_name, hash_value = s.split("=")`, an
unpacking that raises ValueError (modelled as none) unless the split yields
exactly two parts. -/
def _parse_hash (s : List Char) : Option (List (List Char × List Char)) :=
  if '=' ∈ s then
    match pySplit '=' s with
    | [hash_name, hash_value] => some [(hash_name, hash_value)]
    | _ => none
  else some []

/-! ### C9, C10: project-listing refresh (_IndexCache._list_packages)

Source: src/proxpi/_cache.py lines 455-481, 499-508, 600-606. -/

/-- Separator characters of the `[-_.]+` project-name normalisation regex. -/
def isSep (c : Char) : Bool := c = '-' || c = '_' || c = '.'

/-- Embeds `_name_normalise_re.sub("-", name)`: every maximal run of the
characters `-`, `_`, `.` is replaced by a single `-`. -/
def collapseSeps (s : List Char) : List Char :=
  s.foldr
    (fun c acc =>
      if isSep c then
        match acc with
        | '-' :: _ => acc
        | _ => '-' :: acc
      else c :: acc)
    []

/-- Embeds `_name_normalise_re.sub("-", name).lower()`. -/
def _name_normalise (name : String) : String :=
  ⟨(collapseSeps name.toList).map Char.toLower⟩

/-- State of one _IndexCache relevant to the project listing: the listing map
`_index` (normalised name to upstream-relative URL) and the freshness
timestamp `_index_t`. -/
structure IndexState : Type where
  index : List (String × String)
  index_t : Option Nat
deriving DecidableEq

/-- Upstream response body of a project-listing request: either the JSON
form (a list of project names) or the HTML form (anchor text and href
pairs). -/
inductive UpstreamListing : Type
  | jsonList (projects : List String)
  | htmlList (anchors : List (String × String))

/-- Embeds the update loops of _IndexCache._list_packages (lines 467-481):
the JSON branch stores `name_normalised -> f"{name_normalised}/"`, the HTML
branch stores `normalise(child.text) -> child.attrib["href"]`.  Both loops
only insert into the map. -/
def applyListing (index : List (String × String)) :
    UpstreamListing → List (String × String)
  | .jsonList projects =>
    projects.foldl
      (fun m p =>
        let n := _name_normalise p
        ainsert m n (n ++ "/"))
      index
  | .htmlList anchors =>
    anchors.foldl (fun m a => ainsert m (_name_normalise a.1) a.2) index

/-- Embeds the freshness test of _list_packages (line 457):
`self._index_t is not None and _now() < self._index_t + self.ttl`. -/
def indexFresh (st : IndexState) (now ttl : Nat) : Bool :=
  match st.index_t with
  | none => false
  | some t => decide (now < t + ttl)

/-- Embeds _IndexCache._list_packages as a state transition.  The upstream
request outcome is passed in: Except.error stands for a non-2xx response or
network error (response.raise_for_status on line 464 raises before any state
is written; the timestamp assignment on line 465 and the map updates come
after it). -/
def _list_packages (st : IndexState) (ttl now : Nat)
    (response : Except Unit UpstreamListing) :
    Except Unit Unit × IndexState :=
  if indexFresh st now ttl then (.ok (), st)
  else
    match response with
    | .error e => (.error e, st)
    | .ok listing =>
      (.ok (), { index := applyListing st.index listing, index_t := some now })

/-- Embeds _IndexCache.invalidate_list (lines 600-606): a no-op when the
index lock is held, otherwise resets the timestamp and clears the map. -/
def invalidate_list (st : IndexState) (index_locked : Bool) : IndexState :=
  if index_locked then st else { index := [], index_t := none }

/-! ### C7: metadata-suffix routing (_IndexCache.get_file_url)

Source: src/proxpi/_cache.py lines 569-598.  A URL is modelled by its
urllib.parse.urlsplit components, so urlsplit and urlunsplit become the
identity pair and the path edit acts directly on the path component. -/

/-- Components of a split URL (scheme, netloc, path, query, fragment). -/
structure UrlParts : Type where
  scheme : String
  netloc : String
  path : String
  query : String
  fragment : String
deriving DecidableEq

/-- Embeds _IndexCache.get_file_url, after the list_files refresh, over the
file map of the already-resolved project: `is_metadata` tests the Python
slice `file_name[-9:] == ".metadata"` (the slice clamps for short strings
exactly like truncated Nat subtraction), the lookup key is
`file_name[:-9]` when the suffix matched, a missing file raises NotFound
(none), and for metadata requests the stored URL is returned with
".metadata" appended to its path component. -/
def get_file_url (files : List (List Char × UrlParts)) (file_name : List Char) :
    Option UrlParts :=
  let is_metadata :=
    decide (file_name.drop (file_name.length - 9) = ".metadata".toList)
  match alookup files (if is_metadata
      then file_name.take (file_name.length - 9) else file_name) with
  | none => none
  | some url =>
    some (if is_metadata then { url with path := url.path ++ ".metadata" }
          else url)

/-! ### C3, C4: the aggregator (Cache.get_file, Cache.list_files)

Source: src/proxpi/_cache.py lines 1132-1192.  Each index cache is
abstracted to its observable result for the queried project: for get_file a
resolver `String -> String -> Option String` (none stands for a NotFound
raise), for list_files a lister `String -> Option (List AFile)`. -/

/-- A package file as the aggregator sees it: the identity used for
de-duplication (name) and the upstream URL (distinguishing which index
provided it). -/
structure AFile : Type where
  name : String
  url : String
deriving DecidableEq

/-- Embeds Cache.get_file (lines 1165-1192) up to the final
file_cache.get call: the returned value is the upstream URL handed to the
file cache, or none when the NotFound exception propagates.  The extras
loop has no break, so a success by a later extra overwrites an earlier
one. -/
def cache_get_file (root : String → String → Option String)
    (extra_caches : List (String → String → Option String))
    (package_name file_name : String) : Option String :=
  match root package_name file_name with
  | some u => some u
  | none =>
    extra_caches.foldl
      (fun url c =>
        match c package_name file_name with
        | some u => some u
        | none => url)
      none

/-- One step of the de-duplicating append of Cache.list_files (lines
1158-1160): `if file.name not in {f.name for f in files}:
files.append(file)`. -/
def appendNew (files : List AFile) (file : AFile) : List AFile :=
  if files.any fun g => decide (g.name = file.name) then files
  else files ++ [file]

/-- Embeds Cache.list_files (lines 1132-1163): root files first (NotFound
from root is remembered), then each extra in order (NotFound skipped),
appending only files whose name is not already present; the remembered
exception is re-raised (none) iff the combined list is empty and root
raised. -/
def cache_list_files (root : String → Option (List AFile))
    (extra_caches : List (String → Option (List AFile)))
    (package_name : String) : Option (List AFile) :=
  let start : List AFile × Bool :=
    match root package_name with
    | none => ([], true)
    | some fs => (fs, false)
  let files :=
    extra_caches.foldl
      (fun acc c =>
        match c package_name with
        | none => acc
        | some extra_files => extra_files.foldl appendNew acc)
      start.1
  if files.isEmpty && start.2 then none else some files

/-- Modelled from the amended claim: append, in order, those files of one
extra index whose filename is not already present (names of files appended
earlier, including earlier files of the same extra, count as present). -/
def specAppendNew (files : List AFile) : List AFile → List AFile
  | [] => files
  | f :: rest =>
    if f.name ∈ files.map AFile.name then specAppendNew files rest
    else specAppendNew (files ++ [f]) rest

/-- Modelled from the amended claim: process the extra indexes in their
configured order, skipping every extra that raises NotFound and appending
the not-already-present files of each extra that succeeds. -/
def specCombine (files : List AFile)
    (extras : List (String → Option (List AFile))) (package_name : String) :
    List AFile :=
  match extras with
  | [] => files
  | c :: cs =>
    match c package_name with
    | none => specCombine files cs package_name
    | some extra_files =>
      specCombine (specAppendNew files extra_files) cs package_name

/-- Modelled from the amended claim: the combined listing is the root
files first, followed by the de-duplicated extra files in order; NotFound
is raised iff the root index raised NotFound and the combined list is
empty. -/
def specListFiles (root : String → Option (List AFile))
    (extras : List (String → Option (List AFile)))
    (package_name : String) : Option (List AFile) :=
  match root package_name with
  | some fs => some (specCombine fs extras package_name)
  | none =>
    match specCombine [] extras package_name with
    | [] => none
    | fs => some fs

/-! ### C6, C2: the file cache (_FileCache)

Source: src/proxpi/_cache.py lines 638-1054.  The _files dict maps cache
keys to either a completed _CachedFile or the in-flight download Thread; it
is modelled as an association list in dict insertion order. -/

/-- Embeds the _CachedFile record (lines 638-651). -/
structure _CachedFile : Type where
  path : String
  size : Nat
  n_hits : Nat
deriving DecidableEq

/-- An entry of _FileCache._files: a completed cached file or a download
Thread.  The Bool of a thread entry is the exception stored by the
exception-carrying Thread wrapper (class Thread, lines 292-307): true iff
the worker body raised. -/
inductive FileEntry : Type
  | cached (f : _CachedFile)
  | thread (exc : Bool)
deriving DecidableEq

/-- Outcome of one download worker run, passed to the embedding as an
oracle: the upstream interaction is external input. -/
inductive DownloadOutcome : Type
  | success (size : Nat)
  | httpFailure
  | raised
  | running
deriving DecidableEq

/-- Total size in bytes of a list of cached entries. -/
def sumSize (l : List (String × _CachedFile)) : Nat :=
  (l.map fun kf => kf.2.size).sum

/-- Embeds Python list.sort(key=...) for a Nat-valued key: a stable
insertion sort (stability matters, because _evict_lfu sorts twice). -/
def pySortInsert {α : Type} (key : α → Nat) (x : α) : List α → List α
  | [] => [x]
  | y :: ys =>
    if key y < key x then y :: pySortInsert key x ys else x :: y :: ys

/-- Stable sort by a Nat-valued key, modelling Python list.sort(key=...). -/
def pySort {α : Type} (key : α → Nat) : List α → List α
  | [] => []
  | x :: xs => pySortInsert key x (pySort key xs)

/-- The cached entries of the _files map, in map order, with their keys:
embeds `[u for u, f in self._files.items() if isinstance(f, _CachedFile)]`
(line 1022), keeping the entry next to its key. -/
def cachedList (files : List (String × FileEntry)) :
    List (String × _CachedFile) :=
  files.filterMap fun kf =>
    match kf.2 with
    | .cached f => some (kf.1, f)
    | .thread _ => none

/-- Embeds the while loop of _evict_lfu (lines 1026-1030) over the sorted
candidate list: while `existing_size + file_size > max_size and
existing_size > 0`, pop the front candidate.  Returns the popped (evicted)
prefix and the remaining suffix; existing_size is the total size of the
candidates not yet popped. -/
def evictLoop (file_size max_size : Nat) :
    List (String × _CachedFile) →
    List (String × _CachedFile) × List (String × _CachedFile)
  | [] => ([], [])
  | kf :: rest =>
    if max_size < sumSize (kf :: rest) + file_size ∧ 0 < sumSize (kf :: rest)
    then
      (kf :: (evictLoop file_size max_size rest).1,
       (evictLoop file_size max_size rest).2)
    else ([], kf :: rest)

/-- Embeds _FileCache._evict_lfu (lines 1018-1030).  file_size is the
anticipated download size (the Content-Length of the HEAD probe, or 0).
Candidates are the cached entries; they are sorted by size and then,
stably, by n_hits (so n_hits is the primary key and size breaks ties); the
loop evicts from the front.  Each evicted entry is unlinked from disk and
popped from the map: the first component is the updated map, the second
the evicted entries (whose paths are the files deleted from disk). -/
def _evict_lfu (files : List (String × FileEntry)) (file_size max_size : Nat) :
    List (String × FileEntry) × List (String × _CachedFile) :=
  ((evictLoop file_size max_size
      (pySort (fun kf => kf.2.n_hits)
        (pySort (fun kf => kf.2.size) (cachedList files)))).1.foldl
      (fun m kf => aremove m kf.1) files,
   (evictLoop file_size max_size
      (pySort (fun kf => kf.2.n_hits)
        (pySort (fun kf => kf.2.size) (cachedList files)))).1)

/-- Effect of the download worker _download_file (lines 796-973) on the
_files map once the thread is joined.  On success (lines 938-941) the key
is overwritten with a fresh _CachedFile (n_hits 0).  On an upstream
non-2xx status (lines 848-855) the worker logs, deletes the temporary
file and returns None: the map entry is not touched.  On an exception in
the final retry (lines 960-967) the worker likewise swallows the
exception and returns None, so Thread.exc is never set and the map entry
is not touched.  The running case models a join timeout: the worker has
not finished and the map is unchanged. -/
def workerStep (files : List (String × FileEntry)) (key path : String) :
    DownloadOutcome → List (String × FileEntry)
  | .success size => ainsert files key (.cached ⟨path, size, 0⟩)
  | .httpFailure => files
  | .raised => files
  | .running => files

/-- Embeds _FileCache._wait_for_existing_download (lines 975-996): when
the entry is a Thread, join it; join re-raises the stored exception, in
which case the entry is popped and the wait is given up; when after the
join the entry is still a Thread (timeout, or a failed download that left
the dead Thread in place) the wait is also given up.  Returns the updated
map and the given-up flag. -/
def _wait_for_existing_download (files : List (String × FileEntry))
    (key : String) : List (String × FileEntry) × Bool :=
  match alookup files key with
  | some (.thread exc) =>
    if exc then (aremove files key, true) else (files, true)
  | _ => (files, false)

/-- Embeds _FileCache._get_cached (lines 998-1007): a _CachedFile entry is
a hit (n_hits incremented, path returned); anything else is a miss.  A
Thread entry would fail the assert on line 1002; it is unreachable from
get, which only calls _get_cached after the wait reported no Thread. -/
def _get_cached (files : List (String × FileEntry)) (key : String) :
    List (String × FileEntry) × Option String :=
  match alookup files key with
  | some (.cached f) =>
    (ainsert files key (.cached { f with n_hits := f.n_hits + 1 }),
     some f.path)
  | _ => (files, none)

/-- Embeds _FileCache.get (lines 1032-1054), with the recursive
`self.get(url)` after _start_downloading unrolled once: the freshly
started worker settles to `outcome` (an oracle input) before the recursive
call inspects the map again.  key stands for `self._get_key(url)` and path
for the on-disk target path; anticipated is the HEAD-probe size used by
eviction.  Returns the updated map and the result (a local path, or the
original URL when the cache gives up). -/
def fileCacheGet (files : List (String × FileEntry)) (max_size : Nat)
    (url key path : String) (outcome : DownloadOutcome)
    (anticipated : Nat) : List (String × FileEntry) × String :=
  if max_size = 0 then (files, url)
  else
    match _wait_for_existing_download files key with
    | (files₁, true) => (files₁, url)
    | (files₁, false) =>
      match _get_cached files₁ key with
      | (files₂, some p) => (files₂, p)
      | (files₂, none) =>
        let files₃ := ainsert files₂ key (.thread false)
        let files₄ := (_evict_lfu files₃ anticipated max_size).1
        let files₅ := workerStep files₄ key path outcome
        match _wait_for_existing_download files₅ key with
        | (files₆, true) => (files₆, url)
        | (files₆, false) =>
          match _get_cached files₆ key with
          | (files₇, some p) => (files₇, p)
          | (files₇, none) => (files₇, url)

/-! ### C5: content negotiation (server._wants_json)

Source: src/proxpi/server.py lines 61-110.  The request is abstracted to
the optional format query argument and the quality function of the parsed
Accept header (what `flask.request.accept_mimetypes.quality` computes);
qualities are rationals.  Except.error models flask.abort(406). -/

/-- The constant KNOWN_LATEST_JSON_VERSION (server.py line 61). -/
def KNOWN_LATEST_JSON_VERSION : String := "v1"

/-- The JSON media-type for a simple-API version (server.py line 87). -/
def json_media_type (version : String) : String :=
  "application/vnd.pypi.simple." ++ version ++ "+json"

/-- The html_keys set of server.py lines 88-92, as an equality test. -/
def isHtmlKey (f : String) : Prop :=
  f = "text/html" ∨ f = "application/vnd.pypi.simple.v1+html" ∨
    f = "application/vnd.pypi.simple.latest+html"

instance (f : String) : Decidable (isHtmlKey f) := by
  unfold isHtmlKey; infer_instance

/-- The maximum HTML quality (server.py line 101):
`max(quality(k) for k in html_keys)`; max is commutative, so the set
iteration order is irrelevant. -/
def htmlQuality (q : String → ℚ) : ℚ :=
  max (q "text/html")
    (max (q "application/vnd.pypi.simple.v1+html")
      (q "application/vnd.pypi.simple.latest+html"))

/-- Embeds the quality-negotiation tail of _wants_json (server.py lines
100-110): 406 (Except.error) when both the JSON quality and the maximal
HTML quality are zero (Python falsiness), otherwise the truthiness of the
Python expression `json_quality and json_quality >= html_quality and
json_quality > iana_html_quality`. -/
def negotiationDecision (version : String) (q : String → ℚ) :
    Except Unit Bool :=
  if q (json_media_type version) = 0 ∧ htmlQuality q = 0 then .error ()
  else
    .ok (decide (¬q (json_media_type version) = 0) &&
      (decide (htmlQuality q ≤ q (json_media_type version)) &&
        decide (q "text/html" < q (json_media_type version))))

/-- Embeds the body of _wants_json after its recursive latest-probe
(server.py lines 87-110) for one version: a truthy format argument
short-circuits on the exact JSON media-type (JSON) or any HTML key (HTML);
every other case (no format, empty format, unknown format) falls through
to quality negotiation. -/
def wantsJsonCore (version : String) (format : Option String)
    (q : String → ℚ) : Except Unit Bool :=
  match format with
  | some f =>
    if f = "" then negotiationDecision version q
    else if f = json_media_type version then .ok true
    else if isHtmlKey f then .ok false
    else negotiationDecision version q
  | none => negotiationDecision version q

/-- Embeds _wants_json (server.py lines 65-110).  For version "v1"
(KNOWN_LATEST_JSON_VERSION) the function first asks itself about "latest":
a NotAcceptable abort from that probe is swallowed, a true answer is
returned immediately, otherwise the v1 body runs.  The recursive call is
unrolled: on "latest" the version test fails, so the recursion is exactly
one call of the core body. -/
def wantsJson (version : String) (format : Option String)
    (q : String → ℚ) : Except Unit Bool :=
  if version = KNOWN_LATEST_JSON_VERSION then
    match wantsJsonCore "latest" format q with
    | .ok true => .ok true
    | _ => wantsJsonCore version format q
  else wantsJsonCore version format q

/-- Modelled from the spec (the claim as frozen, for comparison): the
request wants JSON iff the format argument equals the JSON media-type of
the version under consideration, or the JSON quality is at least the
maximal HTML quality and strictly above the text/html quality; 406 when
neither JSON nor HTML has non-zero quality. -/
def specWantsJsonClaim (version : String) (format : Option String)
    (q : String → ℚ) : Except Unit Bool :=
  if format = some (json_media_type version)
      ∨ (htmlQuality q ≤ q (json_media_type version)
        ∧ q "text/html" < q (json_media_type version)) then
    .ok true
  else if q (json_media_type version) = 0 ∧ htmlQuality q = 0 then .error ()
  else .ok false

/-- Whether a JSON media-type wins the quality negotiation of
_wants_json: non-zero quality, at least the maximal HTML quality, and
strictly above the text/html quality. -/
def jsonQualifies (q : String → ℚ) (k : String) : Bool :=
  decide (¬q k = 0) &&
    (decide (htmlQuality q ≤ q k) && decide (q "text/html" < q k))

/-- Modelled from the spec as amended: the JSON media-types accepted for a
version (for v1, the latest type as well), cf. the spec sentence that a
latest JSON entry also satisfies a v1 request. -/
def specJsonKeys (version : String) : List String :=
  if version = KNOWN_LATEST_JSON_VERSION then
    [json_media_type "latest", json_media_type "v1"]
  else [json_media_type version]

/-- The amended negotiation decision, written flat from the amended claim:
a truthy format equal to one of the accepted JSON media-types forces JSON
and a truthy format equal to an HTML media-type forces HTML regardless of
Accept; otherwise the request wants JSON iff some accepted JSON media-type
qualifies, it is rejected with 406 iff none qualifies and both the
version's own JSON quality and the maximal HTML quality are zero, and it
wants HTML otherwise. -/
def specWantsJsonAmended (version : String) (format : Option String)
    (q : String → ℚ) : Except Unit Bool :=
  let jks := specJsonKeys version
  let negotiation : Except Unit Bool :=
    if jks.any (jsonQualifies q) then .ok true
    else if q (json_media_type version) = 0 ∧ htmlQuality q = 0 then
      .error ()
    else .ok false
  match format with
  | some f =>
    if f ≠ "" ∧ f ∈ jks then .ok true
    else if f ≠ "" ∧ isHtmlKey f then .ok false
    else negotiation
  | none => negotiation

/-! ## Helper lemmas -/

theorem alookup_ainsert {α β : Type} [DecidableEq α] (m : List (α × β))
    (k k₂ : α) (v : β) :
    alookup (ainsert m k v) k₂ = if k₂ = k then some v else alookup m k₂ := by
  induction m with
  | nil => simp [ainsert, alookup]
  | cons kv rest ih =>
    obtain ⟨a, b⟩ := kv
    by_cases hak : a = k
    · subst hak
      by_cases hk : k₂ = a <;> simp [ainsert, alookup, hk]
    · by_cases hk : k₂ = a
      · subst hk
        simp [ainsert, alookup, hak, Ne.symm hak]
      · simp [ainsert, alookup, hak, hk, ih]

theorem foldl_preserve {α β : Type} (P : β → Prop) (step : β → α → β)
    (hstep : ∀ b a, P b → P (step b a)) :
    ∀ (l : List α) (b : β), P b → P (l.foldl step b) := by
  intro l
  induction l with
  | nil => intro b hb; exact hb
  | cons x xs ih => intro b hb; exact ih _ (hstep _ _ hb)

/-! ## C9, C10 -/

/-- C9: a successful refresh of the project listing only inserts into the
listing map: every project name present before the refresh is still
present afterwards (whether or not upstream still lists it, and in both
the cache-hit and the refresh branch, for both response forms), and only
invalidate_list (when the index lock is free) clears the map. -/
theorem list_packages_monotone (st : IndexState) (ttl now : Nat)
    (listing : UpstreamListing) (k : String)
    (h : (alookup st.index k).isSome = true) :
    (alookup ((_list_packages st ttl now (.ok listing)).2.index) k).isSome = true
    ∧ alookup (invalidate_list st false).index k = none := by
  constructor
  · unfold _list_packages
    by_cases hf : indexFresh st now ttl
    · simpa [hf] using h
    · simp only [hf, Bool.false_eq_true, if_false]
      cases listing with
      | jsonList projects =>
        refine foldl_preserve (fun m => (alookup m k).isSome = true) _ ?_
          projects st.index h
        intro m p hm
        rw [alookup_ainsert]
        split
        · rfl
        · exact hm
      | htmlList anchors =>
        refine foldl_preserve (fun m => (alookup m k).isSome = true) _ ?_
          anchors st.index h
        intro m a hm
        rw [alookup_ainsert]
        split
        · rfl
        · exact hm
  · simp [invalidate_list, alookup]

/-- Witness for C9 at a concrete state: "numpy" is listed, upstream now
lists only "scipy", and after the refresh "numpy" is still listed. -/
theorem list_packages_monotone_witness :
    (alookup (IndexState.mk [("numpy", "numpy/")] (some 0)).index "numpy").isSome
        = true
    ∧ (alookup ((_list_packages (IndexState.mk [("numpy", "numpy/")] (some 0))
        10 100 (.ok (.jsonList ["scipy"]))).2.index) "numpy").isSome = true :=
  ⟨by decide,
   (list_packages_monotone (IndexState.mk [("numpy", "numpy/")] (some 0))
       10 100 (.jsonList ["scipy"]) "numpy" (by decide)).1⟩

/-- C10: when the project-listing request fails on a stale cache, the
exception propagates and the state is unchanged (listing map entries kept,
timestamp not advanced), so the cache stays stale at any later time and
the next call attempts the refresh again. -/
theorem list_packages_error_preserves_state (st : IndexState) (ttl now : Nat)
    (h : indexFresh st now ttl = false) :
    _list_packages st ttl now (.error ()) = (.error (), st)
    ∧ ∀ now₂, now ≤ now₂ → indexFresh st now₂ ttl = false := by
  constructor
  · simp [_list_packages, h]
  · intro now₂ h₂
    unfold indexFresh at h ⊢
    match hs : st.index_t with
    | none => rfl
    | some t =>
      rw [hs] at h
      simp only [decide_eq_false_iff_not] at h ⊢
      omega

/-- Witness for C10 at a concrete stale state. -/
theorem list_packages_error_preserves_state_witness :
    indexFresh (IndexState.mk [("numpy", "numpy/")] (some 0)) 100 10 = false
    ∧ _list_packages (IndexState.mk [("numpy", "numpy/")] (some 0)) 10 100
        (.error ())
      = (.error (), IndexState.mk [("numpy", "numpy/")] (some 0))
    ∧ indexFresh (IndexState.mk [("numpy", "numpy/")] (some 0)) 200 10 = false :=
  ⟨by decide,
   (list_packages_error_preserves_state
       (IndexState.mk [("numpy", "numpy/")] (some 0)) 10 100 (by decide)).1,
   (list_packages_error_preserves_state
       (IndexState.mk [("numpy", "numpy/")] (some 0)) 10 100 (by decide)).2
     200 (by decide)⟩

/-! ## C1 -/

/-- C1: evaluation of the code against the claim.  FileFromHTML.yanked is
the bare presence test `attributes.get("data-yanked") is not None`: an
anchor with data-yanked="obsolete" yields the boolean true, not the reason
string the claim requires; an anchor without the attribute yields the
boolean false rather than Python None, so to_json_response emits
"yanked": false for every file instead of omitting the key; only the
value-less data-yanked="" case agrees with the claim. -/
theorem yanked_code_eval :
    fileFromHTML_yanked [("data-yanked", "obsolete")] = .boolean true
    ∧ specFile_yanked [("data-yanked", "obsolete")] = .strval "obsolete"
    ∧ fileFromHTML_yanked [] = .boolean false
    ∧ to_json_yanked_entry (fileFromHTML_yanked []) = some (.boolean false)
    ∧ specFile_yanked [] = .null
    ∧ to_json_yanked_entry (specFile_yanked []) = none
    ∧ fileFromHTML_yanked [("data-yanked", "")] = .boolean true
    ∧ specFile_yanked [("data-yanked", "")] = .boolean true := by
  decide

/-! ## C2 -/

/-- C2: evaluation of the code at a failed download.  The download worker
swallows HTTP failures and exceptions and returns None, so Thread.exc is
never set and the in-flight entry stays in the _files map after the
failure; a subsequent get finds the dead Thread, gives up, and returns the
upstream URL with the map unchanged — even though a retry (the oracle
outcome of a new download, here success) would have succeeded.  The claim
that the failed entry is removed so that the next call retries is false of
the code. -/
theorem download_failure_entry_retained :
    workerStep [("h/x.whl", FileEntry.thread false)] "h/x.whl" "/c/h/x.whl"
        DownloadOutcome.httpFailure = [("h/x.whl", FileEntry.thread false)]
    ∧ workerStep [("h/x.whl", FileEntry.thread false)] "h/x.whl" "/c/h/x.whl"
        DownloadOutcome.raised = [("h/x.whl", FileEntry.thread false)]
    ∧ alookup (workerStep [("h/x.whl", FileEntry.thread false)] "h/x.whl"
        "/c/h/x.whl" DownloadOutcome.httpFailure) "h/x.whl"
      = some (FileEntry.thread false)
    ∧ fileCacheGet [("h/x.whl", FileEntry.thread false)] 5368709120
        "https://h/x.whl" "h/x.whl" "/c/h/x.whl" (DownloadOutcome.success 7) 0
      = ([("h/x.whl", FileEntry.thread false)], "https://h/x.whl") := by
  refine ⟨rfl, rfl, by decide, ?_⟩
  decide

/-! ## C7 -/

/-- C7: for every filename ending in the literal suffix ".metadata",
get_file_url strips the suffix, looks the underlying file up in the
project file map, raises NotFound (none) when it is absent, and otherwise
returns the underlying file URL with ".metadata" appended to its path
component, query and fragment untouched. -/
theorem get_file_url_metadata (files : List (List Char × UrlParts))
    (base : List Char) :
    get_file_url files (base ++ ".metadata".toList)
      = (alookup files base).map
          (fun u => { u with path := u.path ++ ".metadata" }) := by
  unfold get_file_url
  have h9 : (".metadata".toList).length = 9 := rfl
  have hd : (base ++ ".metadata".toList).length - 9 = base.length := by
    simp [List.length_append, h9]
  rw [hd, List.drop_left, List.take_left]
  cases halookup : alookup files base <;> simp [halookup]

/-! ## C3 -/

theorem resolveFold_none (p f : String)
    (l : List (String → String → Option String)) :
    ∀ acc : Option String,
      l.foldl (fun url c => match c p f with | some u => some u | none => url)
          acc = none
        ↔ acc = none ∧ ∀ c ∈ l, c p f = none := by
  induction l with
  | nil => intro acc; simp
  | cons c l ih =>
    intro acc
    rw [List.foldl_cons, ih]
    cases hc : c p f with
    | none => simp [hc]
    | some u => simp [hc, List.forall_mem_cons]

theorem resolveFold_skip (p f : String)
    (l : List (String → String → Option String)) (acc : Option String)
    (h : ∀ c ∈ l, c p f = none) :
    l.foldl (fun url c => match c p f with | some u => some u | none => url)
      acc = acc := by
  induction l generalizing acc with
  | nil => rfl
  | cons c l ih =>
    rw [List.foldl_cons, h c (List.mem_cons_self c l)]
    exact ih _ fun c₂ hc₂ => h c₂ (List.mem_cons_of_mem c hc₂)

/-- C3 as amended: Cache.get_file asks the root index first and uses its
URL when it resolves; on NotFound from root, the extras are consulted in
order with no early exit, so the URL handed to the file cache is the one
from the last extra index that resolves the pair; NotFound propagates iff
root and every extra raise NotFound. -/
theorem cache_get_file_amended (root : String → String → Option String)
    (extras : List (String → String → Option String)) (p f : String) :
    (cache_get_file root extras p f = none ↔
      root p f = none ∧ ∀ c ∈ extras, c p f = none)
    ∧ (∀ u, root p f = some u → cache_get_file root extras p f = some u)
    ∧ (∀ pre c post u, root p f = none → extras = pre ++ c :: post →
        c p f = some u → (∀ c₂ ∈ post, c₂ p f = none) →
        cache_get_file root extras p f = some u) := by
  refine ⟨?_, ?_, ?_⟩
  · cases hr : root p f with
    | some u => simp [cache_get_file, hr]
    | none =>
      unfold cache_get_file
      rw [hr, resolveFold_none]
  · intro u hu
    simp [cache_get_file, hu]
  · intro pre c post u hr he hc hpost
    subst he
    unfold cache_get_file
    rw [hr, List.foldl_append, List.foldl_cons, hc,
      resolveFold_skip p f post _ hpost]

/-- C3 counterexample to the claim as frozen: with two extra indexes both
resolving the pair (root does not), the code hands the URL of the second
(last) extra to the file cache, not that of the first resolving index as
the claim states. -/
theorem cache_get_file_first_counterexample :
    cache_get_file (fun _ _ => none)
      [fun _ _ => some "https://extra1/x.whl",
       fun _ _ => some "https://extra2/x.whl"]
      "p" "x.whl" = some "https://extra2/x.whl"
    ∧ ("https://extra2/x.whl" : String) ≠ "https://extra1/x.whl" := by
  exact ⟨rfl, by decide⟩

/-- Witness for C3 as amended: one extra resolving after root raised. -/
theorem cache_get_file_amended_witness :
    cache_get_file (fun _ _ => none) [fun _ _ => some "u1"] "p" "f"
      = some "u1" :=
  (cache_get_file_amended (fun _ _ => none) [fun _ _ => some "u1"]
      "p" "f").2.2
    [] (fun _ _ => some "u1") [] "u1" rfl rfl rfl
    (by intro c₂ hc₂; cases hc₂)

/-! ## C4 -/

theorem appendNew_foldl_eq_nil {fs : List AFile} {acc : List AFile}
    (h : fs.foldl appendNew acc = []) : acc = [] ∧ fs = [] := by
  induction fs generalizing acc with
  | nil => exact ⟨h, rfl⟩
  | cons f fs ih =>
    rw [List.foldl_cons] at h
    obtain ⟨h₁, -⟩ := ih h
    unfold appendNew at h₁
    split at h₁
    · next hany =>
      subst h₁
      simp at hany
    · exact absurd h₁ (by simp)

theorem appendNew_foldl_growth (fs : List AFile) (acc : List AFile) :
    ∃ rest, fs.foldl appendNew acc = acc ++ rest := by
  induction fs generalizing acc with
  | nil => exact ⟨[], by simp⟩
  | cons f fs ih =>
    rw [List.foldl_cons]
    obtain ⟨r, hr⟩ := ih (appendNew acc f)
    rw [hr]
    unfold appendNew
    split
    · exact ⟨r, rfl⟩
    · exact ⟨f :: r, by simp⟩

theorem listerFold_eq_nil {p : String}
    {l : List (String → Option (List AFile))} {acc : List AFile}
    (h : l.foldl
        (fun acc c => match c p with
          | none => acc
          | some extra_files => extra_files.foldl appendNew acc)
        acc = []) :
    acc = [] ∧ ∀ c ∈ l, c p = none ∨ c p = some [] := by
  induction l generalizing acc with
  | nil => exact ⟨h, by simp⟩
  | cons c l ih =>
    rw [List.foldl_cons] at h
    obtain ⟨h₁, hall⟩ := ih h
    cases hc : c p with
    | none =>
      rw [hc] at h₁
      refine ⟨h₁, ?_⟩
      intro c₂ hc₂
      rcases List.mem_cons.mp hc₂ with rfl | hmem
      · exact Or.inl hc
      · exact hall c₂ hmem
    | some efs =>
      rw [hc] at h₁
      obtain ⟨ha, hefs⟩ := appendNew_foldl_eq_nil h₁
      subst hefs
      refine ⟨ha, ?_⟩
      intro c₂ hc₂
      rcases List.mem_cons.mp hc₂ with rfl | hmem
      · exact Or.inr hc
      · exact hall c₂ hmem

theorem listerFold_growth (p : String)
    (l : List (String → Option (List AFile))) (acc : List AFile) :
    ∃ rest,
      l.foldl
        (fun acc c => match c p with
          | none => acc
          | some extra_files => extra_files.foldl appendNew acc)
        acc = acc ++ rest := by
  induction l generalizing acc with
  | nil => exact ⟨[], by simp⟩
  | cons c l ih =>
    rw [List.foldl_cons]
    cases hc : c p with
    | none =>
      obtain ⟨r, hr⟩ := ih acc
      exact ⟨r, hr⟩
    | some efs =>
      obtain ⟨r₁, hr₁⟩ := appendNew_foldl_growth efs acc
      obtain ⟨r₂, hr₂⟩ := ih (efs.foldl appendNew acc)
      exact ⟨r₁ ++ r₂, by rw [hr₂, hr₁]; simp⟩

theorem listerFold_of_empty {p : String}
    {l : List (String → Option (List AFile))}
    (h : ∀ c ∈ l, c p = none ∨ c p = some []) :
    l.foldl
      (fun acc c => match c p with
        | none => acc
        | some extra_files => extra_files.foldl appendNew acc)
      [] = [] := by
  induction l with
  | nil => rfl
  | cons c l ih =>
    rw [List.foldl_cons]
    rcases h c (List.mem_cons_self c l) with hc | hc <;> rw [hc]
    all_goals exact ih fun c₂ hc₂ => h c₂ (List.mem_cons_of_mem c hc₂)

theorem appendNew_eq (acc : List AFile) (f : AFile) :
    appendNew acc f
      = if f.name ∈ acc.map AFile.name then acc else acc ++ [f] := by
  have hb : (acc.any fun g => decide (g.name = f.name)) = true
      ↔ f.name ∈ acc.map AFile.name := by
    rw [List.any_eq_true]
    constructor
    · rintro ⟨g, hg, hname⟩
      rw [decide_eq_true_eq] at hname
      exact hname ▸ List.mem_map_of_mem AFile.name hg
    · intro h
      rw [List.mem_map] at h
      obtain ⟨g, hg, hname⟩ := h
      exact ⟨g, hg, by rw [decide_eq_true_eq]; exact hname⟩
  unfold appendNew
  by_cases h : f.name ∈ acc.map AFile.name
  · rw [if_pos (hb.mpr h), if_pos h]
  · rw [if_neg fun hc => h (hb.mp hc), if_neg h]

theorem appendNew_foldl_eq_spec (efs : List AFile) (acc : List AFile) :
    efs.foldl appendNew acc = specAppendNew acc efs := by
  induction efs generalizing acc with
  | nil => rfl
  | cons f rest ih =>
    rw [List.foldl_cons, appendNew_eq]
    unfold specAppendNew
    by_cases h : f.name ∈ acc.map AFile.name
    · rw [if_pos h, if_pos h, ih]
    · rw [if_neg h, if_neg h, ih]

theorem listerFold_eq_specCombine (p : String)
    (extras : List (String → Option (List AFile))) (acc : List AFile) :
    extras.foldl
        (fun acc c =>
          match c p with
          | none => acc
          | some extra_files => extra_files.foldl appendNew acc)
        acc
      = specCombine acc extras p := by
  induction extras generalizing acc with
  | nil => rfl
  | cons c cs ih =>
    rw [List.foldl_cons]
    unfold specCombine
    cases hc : c p with
    | none =>
      show List.foldl
          (fun acc c =>
            match c p with
            | none => acc
            | some extra_files => List.foldl appendNew acc extra_files)
          acc cs
        = specCombine acc cs p
      exact ih acc
    | some efs =>
      show List.foldl
          (fun acc c =>
            match c p with
            | none => acc
            | some extra_files => List.foldl appendNew acc extra_files)
          (List.foldl appendNew acc efs) cs
        = specCombine (specAppendNew acc efs) cs p
      rw [appendNew_foldl_eq_spec]
      exact ih (specAppendNew acc efs)

/-- C4 as amended: Cache.list_files computes exactly the listing the
amended claim describes — the root files first, then the extra indexes in
their configured order, skipping extras that raise NotFound and appending
only files whose name is not already present (specListFiles) — and it
raises NotFound iff root raised NotFound and the combined list is empty,
that is, iff root raised and every extra index either raised NotFound or
contributed an empty file list.  (The claim as frozen required NotFound
from every extra; an extra that succeeds with zero files also lets the
root exception re-raise.) -/
theorem cache_list_files_amended (root : String → Option (List AFile))
    (extras : List (String → Option (List AFile))) (p : String) :
    cache_list_files root extras p = specListFiles root extras p
    ∧ (cache_list_files root extras p = none ↔
      root p = none ∧ ∀ c ∈ extras, c p = none ∨ c p = some [])
    ∧ (∀ fs, root p = some fs →
        ∃ rest, cache_list_files root extras p = some (fs ++ rest)) := by
  refine ⟨?_, ?_, ?_⟩
  · unfold cache_list_files specListFiles
    cases hr : root p with
    | some fs =>
      simp only [hr]
      rw [listerFold_eq_specCombine]
      simp
    | none =>
      simp only [hr]
      rw [listerFold_eq_specCombine]
      cases hsc : specCombine [] extras p with
      | nil => simp
      | cons f fsl => simp
  · cases hr : root p with
    | some fs => simp [cache_list_files, hr]
    | none =>
      unfold cache_list_files
      simp only [hr, Bool.and_true]
      constructor
      · intro h
        split at h
        · next he =>
          exact ⟨trivial, (listerFold_eq_nil (List.isEmpty_iff.mp he)).2⟩
        · exact absurd h (by simp)
      · rintro ⟨-, hall⟩
        rw [listerFold_of_empty hall]
        rfl
  · intro fs hfs
    unfold cache_list_files
    simp only [hfs]
    obtain ⟨r, hrw⟩ := listerFold_growth p extras fs
    exact ⟨r, by simp [hrw]⟩

/-- C4 counterexample to the claim as frozen: root raises NotFound and the
only extra succeeds with an empty file list; the code raises NotFound
although not every index raised it. -/
theorem cache_list_files_counterexample :
    cache_list_files (fun _ => none) [fun _ => some []] "numpy" = none
    ∧ (fun _ => some ([] : List AFile)) "numpy" ≠ none := by
  exact ⟨rfl, by simp⟩

/-- Witness for C4 as amended, exercising every conjunct at concrete
indexes: root provides a.whl, the extra provides a duplicate-named a.whl
(different URL, skipped) and b.whl (appended); the combined listing equals
the amended-claim model and keeps root's a.whl. -/
theorem cache_list_files_amended_witness :
    cache_list_files (fun _ => some [AFile.mk "a.whl" "root"])
        [fun _ => some [AFile.mk "a.whl" "extra", AFile.mk "b.whl" "extra"]]
        "numpy"
      = specListFiles (fun _ => some [AFile.mk "a.whl" "root"])
        [fun _ => some [AFile.mk "a.whl" "extra", AFile.mk "b.whl" "extra"]]
        "numpy"
    ∧ cache_list_files (fun _ => some [AFile.mk "a.whl" "root"])
        [fun _ => some [AFile.mk "a.whl" "extra", AFile.mk "b.whl" "extra"]]
        "numpy"
      = some [AFile.mk "a.whl" "root", AFile.mk "b.whl" "extra"]
    ∧ cache_list_files (fun _ => none)
        [fun _ => some ([] : List AFile)] "numpy" = none
    ∧ ∃ rest,
        cache_list_files (fun _ => some [AFile.mk "a.whl" "root"])
          [fun _ => some [AFile.mk "a.whl" "extra", AFile.mk "b.whl" "extra"]]
          "numpy"
          = some ([AFile.mk "a.whl" "root"] ++ rest) :=
  ⟨(cache_list_files_amended (fun _ => some [AFile.mk "a.whl" "root"])
        [fun _ => some [AFile.mk "a.whl" "extra", AFile.mk "b.whl" "extra"]]
        "numpy").1,
   by decide,
   (cache_list_files_amended (fun _ => none) [fun _ => some []]
        "numpy").2.1.mpr ⟨rfl, by simp⟩,
   (cache_list_files_amended (fun _ => some [AFile.mk "a.whl" "root"])
        [fun _ => some [AFile.mk "a.whl" "extra", AFile.mk "b.whl" "extra"]]
        "numpy").2.2 [AFile.mk "a.whl" "root"] rfl⟩

/-! ## C8 -/

theorem pySplit_ne_nil (sep : Char) (l : List Char) : pySplit sep l ≠ [] := by
  induction l with
  | nil => simp [pySplit]
  | cons c rest ih =>
    unfold pySplit
    cases h : pySplit sep rest with
    | nil => exact absurd h ih
    | cons cur parts => by_cases hc : c = sep <;> simp [hc]

theorem length_pySplit (sep : Char) (l : List Char) :
    (pySplit sep l).length = l.count sep + 1 := by
  induction l with
  | nil => simp [pySplit]
  | cons c rest ih =>
    unfold pySplit
    cases h : pySplit sep rest with
    | nil => exact absurd h (pySplit_ne_nil sep rest)
    | cons cur parts =>
      rw [h] at ih
      by_cases hc : c = sep
      · subst hc
        simp only [List.length_cons] at ih
        simp [List.count_cons, ih]
      · simp only [List.length_cons] at ih
        simp [List.count_cons, hc, Ne.symm hc, ih]

theorem pySplit_no_sep (sep : Char) (l : List Char) (h : sep ∉ l) :
    pySplit sep l = [l] := by
  induction l with
  | nil => rfl
  | cons c rest ih =>
    have hc : ¬c = sep := by
      intro hce
      exact h (by rw [hce]; exact List.mem_cons_self sep rest)
    unfold pySplit
    rw [ih fun hm => h (List.mem_cons_of_mem c hm)]
    simp [hc]

theorem pySplit_single (n v : List Char) (hn : '=' ∉ n) (hv : '=' ∉ v) :
    pySplit '=' (n ++ '=' :: v) = [n, v] := by
  induction n with
  | nil =>
    simp only [List.nil_append]
    unfold pySplit
    rw [pySplit_no_sep '=' v hv]
    simp
  | cons c n ih =>
    have hc : ¬c = '=' := by
      intro hce
      exact hn (by rw [hce]; exact List.mem_cons_self '=' n)
    simp only [List.cons_append]
    unfold pySplit
    rw [ih fun hm => hn (List.mem_cons_of_mem c hm)]
    simp [hc]

/-- C8 as amended: _parse_hash is total only on fragments with at most one
"=": it returns the empty map when the fragment contains no "=", the
single-entry map splitting the fragment at its unique "=" when it contains
exactly one, and raises ValueError (none) when the fragment contains two
or more "=" (str.split is called without maxsplit, so the two-name
unpacking fails). -/
theorem parse_hash_amended (s : List Char) :
    ('=' ∉ s → _parse_hash s = some [])
    ∧ (∀ n v, s = n ++ '=' :: v → '=' ∉ n → '=' ∉ v →
        _parse_hash s = some [(n, v)])
    ∧ (2 ≤ s.count '=' → _parse_hash s = none) := by
  refine ⟨?_, ?_, ?_⟩
  · intro h
    simp [_parse_hash, h]
  · intro n v hs hn hv
    subst hs
    have hmem : '=' ∈ n ++ '=' :: v :=
      List.mem_append_right n (List.mem_cons_self '=' v)
    rw [_parse_hash, if_pos hmem, pySplit_single n v hn hv]
  · intro h2
    have hmem : '=' ∈ s := by
      by_contra hnm
      rw [List.count_eq_zero_of_not_mem hnm] at h2
      omega
    have hlen := length_pySplit '=' s
    rw [_parse_hash, if_pos hmem]
    rcases hsp : pySplit '=' s with _ | ⟨a, _ | ⟨b, rest₂⟩⟩
    · exact absurd hsp (pySplit_ne_nil '=' s)
    · rfl
    · rcases rest₂ with _ | ⟨c, t⟩
      · rw [hsp] at hlen
        simp at hlen
        omega
      · rfl

/-- C8 counterexample to the claim as frozen: on the fragment "a=b=c",
which contains more than one "=", _parse_hash raises ValueError (none)
instead of returning the map from splitting on the first "=": the
function is not total. -/
theorem parse_hash_not_total :
    _parse_hash ['a', '=', 'b', '=', 'c'] = none := by
  decide

/-- Witness for C8 as amended at the fragment "sha256=abc". -/
theorem parse_hash_amended_witness :
    _parse_hash "sha256=abc".toList
      = some [("sha256".toList, "abc".toList)] :=
  (parse_hash_amended "sha256=abc".toList).2.1 "sha256".toList "abc".toList
    (by decide) (by decide) (by decide)

/-! ## C6: sorting lemmas -/

theorem mem_pySortInsert {α : Type} (key : α → Nat) (x a : α) (l : List α) :
    a ∈ pySortInsert key x l ↔ a = x ∨ a ∈ l := by
  induction l with
  | nil => simp [pySortInsert]
  | cons y ys ih =>
    unfold pySortInsert
    split
    · simp only [List.mem_cons, ih]
      tauto
    · simp only [List.mem_cons]

theorem pySortInsert_perm {α : Type} (key : α → Nat) (x : α) (l : List α) :
    List.Perm (pySortInsert key x l) (x :: l) := by
  induction l with
  | nil => exact List.Perm.refl _
  | cons y ys ih =>
    unfold pySortInsert
    split
    · exact (ih.cons y).trans (List.Perm.swap x y ys)
    · exact List.Perm.refl _

theorem pySort_perm {α : Type} (key : α → Nat) (l : List α) :
    List.Perm (pySort key l) l := by
  induction l with
  | nil => exact List.Perm.refl _
  | cons x xs ih =>
    exact (pySortInsert_perm key x (pySort key xs)).trans (ih.cons x)

theorem mem_pySort {α : Type} (key : α → Nat) (a : α) (l : List α) :
    a ∈ pySort key l ↔ a ∈ l :=
  (pySort_perm key l).mem_iff

theorem pySortInsert_pairwise {α : Type} (key : α → Nat) (x : α) (l : List α)
    (h : l.Pairwise fun a b => key a ≤ key b) :
    (pySortInsert key x l).Pairwise fun a b => key a ≤ key b := by
  induction l with
  | nil => simp [pySortInsert]
  | cons y ys ih =>
    rw [List.pairwise_cons] at h
    obtain ⟨hy, hys⟩ := h
    unfold pySortInsert
    split
    · next hlt =>
      rw [List.pairwise_cons]
      refine ⟨?_, ih hys⟩
      intro z hz
      rcases (mem_pySortInsert key x z ys).mp hz with rfl | hzm
      · exact Nat.le_of_lt hlt
      · exact hy z hzm
    · next hnlt =>
      rw [List.pairwise_cons]
      refine ⟨?_, List.pairwise_cons.mpr ⟨hy, hys⟩⟩
      intro z hz
      rcases List.mem_cons.mp hz with rfl | hzm
      · exact Nat.le_of_not_lt hnlt
      · exact Nat.le_trans (Nat.le_of_not_lt hnlt) (hy z hzm)

theorem pySort_pairwise {α : Type} (key : α → Nat) (l : List α) :
    (pySort key l).Pairwise fun a b => key a ≤ key b := by
  induction l with
  | nil => simp [pySort]
  | cons x xs ih => exact pySortInsert_pairwise key x _ ih

theorem pySortInsert_pairwise_lex {α : Type} (h s : α → Nat) (x : α)
    (l : List α)
    (hP : l.Pairwise fun a b => h a < h b ∨ (h a = h b ∧ s a ≤ s b))
    (hQ : ∀ z ∈ l, h x = h z → s x ≤ s z) :
    (pySortInsert h x l).Pairwise
      fun a b => h a < h b ∨ (h a = h b ∧ s a ≤ s b) := by
  induction l with
  | nil => simp [pySortInsert]
  | cons y ys ih =>
    rw [List.pairwise_cons] at hP
    obtain ⟨hy, hys⟩ := hP
    unfold pySortInsert
    split
    · next hlt =>
      rw [List.pairwise_cons]
      refine ⟨?_, ih hys fun z hz he => hQ z (List.mem_cons_of_mem y hz) he⟩
      intro z hz
      rcases (mem_pySortInsert h x z ys).mp hz with rfl | hzm
      · exact Or.inl hlt
      · exact hy z hzm
    · next hnlt =>
      have hxy : h x ≤ h y := Nat.le_of_not_lt hnlt
      rw [List.pairwise_cons]
      refine ⟨?_, List.pairwise_cons.mpr ⟨hy, hys⟩⟩
      intro z hz
      rcases List.mem_cons.mp hz with rfl | hzm
      · rcases Nat.eq_or_lt_of_le hxy with heq | hlt₂
        · exact Or.inr ⟨heq, hQ z (List.mem_cons_self z ys) heq⟩
        · exact Or.inl hlt₂
      · have hyz : h y ≤ h z := by
          rcases hy z hzm with hlt₂ | ⟨heq, -⟩
          · exact Nat.le_of_lt hlt₂
          · exact Nat.le_of_eq heq
        have hxz : h x ≤ h z := Nat.le_trans hxy hyz
        rcases Nat.eq_or_lt_of_le hxz with heq | hlt₂
        · exact Or.inr ⟨heq, hQ z (List.mem_cons_of_mem y hzm) heq⟩
        · exact Or.inl hlt₂

theorem pySort_pairwise_lex {α : Type} (h s : α → Nat) (l : List α)
    (hQ : l.Pairwise fun a b => h a = h b → s a ≤ s b) :
    (pySort h l).Pairwise
      fun a b => h a < h b ∨ (h a = h b ∧ s a ≤ s b) := by
  induction l with
  | nil => simp [pySort]
  | cons x xs ih =>
    rw [List.pairwise_cons] at hQ
    obtain ⟨hx, hxs⟩ := hQ
    exact pySortInsert_pairwise_lex h s x _ (ih hxs)
      fun z hz he => hx z ((mem_pySort h z xs).mp hz) he

/-- The double stable sort of _evict_lfu orders the candidates by the
lexicographic key (n_hits, size): n_hits is the primary key (the second,
stable sort) and size breaks its ties (the first sort). -/
theorem evict_sorted_lex (l : List (String × _CachedFile)) :
    (pySort (fun kf => kf.2.n_hits)
        (pySort (fun kf => kf.2.size) l)).Pairwise
      fun a b =>
        a.2.n_hits < b.2.n_hits
          ∨ (a.2.n_hits = b.2.n_hits ∧ a.2.size ≤ b.2.size) := by
  refine pySort_pairwise_lex _ _ _ ?_
  exact (pySort_pairwise (fun kf => kf.2.size) l).imp fun hle => fun _ => hle

/-! ## C6: eviction-loop and map lemmas -/

theorem sumSize_cons (kf : String × _CachedFile)
    (l : List (String × _CachedFile)) :
    sumSize (kf :: l) = kf.2.size + sumSize l := by
  simp [sumSize]

theorem sumSize_append (a b : List (String × _CachedFile)) :
    sumSize (a ++ b) = sumSize a + sumSize b := by
  simp [sumSize]

theorem evictLoop_split (fs ms : Nat) (l : List (String × _CachedFile)) :
    (evictLoop fs ms l).1 ++ (evictLoop fs ms l).2 = l := by
  induction l with
  | nil => rfl
  | cons kf rest ih =>
    unfold evictLoop
    split
    · simpa using ih
    · rfl

theorem evictLoop_stop (fs ms : Nat) (l : List (String × _CachedFile)) :
    sumSize (evictLoop fs ms l).2 + fs ≤ ms
      ∨ sumSize (evictLoop fs ms l).2 = 0 := by
  induction l with
  | nil => right; rfl
  | cons kf rest ih =>
    unfold evictLoop
    split
    · simpa using ih
    · next hc =>
      rw [not_and_or] at hc
      rcases hc with hc | hc
      · exact Or.inl (Nat.le_of_not_lt hc)
      · exact Or.inr (Nat.eq_zero_of_not_pos hc)

theorem evictLoop_cond (fs ms : Nat) (l : List (String × _CachedFile)) :
    ∀ i < (evictLoop fs ms l).1.length,
      ms < sumSize ((evictLoop fs ms l).1.drop i)
        + sumSize (evictLoop fs ms l).2 + fs := by
  induction l with
  | nil => intro i hi; simp [evictLoop] at hi
  | cons kf rest ih =>
    unfold evictLoop
    split
    · next hc =>
      intro i hi
      match i with
      | 0 =>
        have hsplit := evictLoop_split fs ms rest
        have hsum : sumSize (evictLoop fs ms rest).1
            + sumSize (evictLoop fs ms rest).2 = sumSize rest := by
          rw [← sumSize_append, hsplit]
        have h₁ := hc.1
        rw [sumSize_cons] at h₁
        simp only [List.drop_zero, sumSize_cons]
        omega
      | i + 1 =>
        simp only [List.length_cons, Nat.add_lt_add_iff_right] at hi
        simp only [List.drop_succ_cons]
        exact ih i hi
    · intro i hi
      simp at hi

theorem mem_aremove {α β : Type} [DecidableEq α] (m : List (α × β)) (k : α)
    (kv : α × β) :
    kv ∈ aremove m k ↔ kv ∈ m ∧ kv.1 ≠ k := by
  simp [aremove, List.mem_filter]

theorem mem_foldl_aremove {β : Type} (ev : List (String × _CachedFile))
    (files : List (String × β)) (kv : String × β) :
    kv ∈ ev.foldl (fun m kf => aremove m kf.1) files
      ↔ kv ∈ files ∧ ∀ e ∈ ev, kv.1 ≠ e.1 := by
  induction ev generalizing files with
  | nil => simp
  | cons e ev ih =>
    rw [List.foldl_cons, ih, mem_aremove]
    simp only [List.forall_mem_cons]
    tauto

theorem foldl_aremove_sublist {β : Type} (ev : List (String × _CachedFile))
    (files : List (String × β)) :
    List.Sublist (ev.foldl (fun m kf => aremove m kf.1) files) files := by
  induction ev generalizing files with
  | nil => exact List.Sublist.refl _
  | cons e ev ih =>
    rw [List.foldl_cons]
    exact (ih (aremove files e.1)).trans (List.filter_sublist files)

theorem mem_cachedList (files : List (String × FileEntry)) (k : String)
    (f : _CachedFile) :
    (k, f) ∈ cachedList files ↔ (k, FileEntry.cached f) ∈ files := by
  induction files with
  | nil => simp [cachedList]
  | cons kv rest ih =>
    obtain ⟨k₂, e⟩ := kv
    cases e with
    | cached g =>
      have hstep : cachedList ((k₂, FileEntry.cached g) :: rest)
          = (k₂, g) :: cachedList rest := rfl
      rw [hstep, List.mem_cons, List.mem_cons, ih]
      constructor
      · rintro (heq | hm)
        · rw [Prod.mk.injEq] at heq
          obtain ⟨h₁, h₂⟩ := heq
          subst h₁
          subst h₂
          exact Or.inl rfl
        · exact Or.inr hm
      · rintro (heq | hm)
        · rw [Prod.mk.injEq] at heq
          obtain ⟨h₁, h₂⟩ := heq
          subst h₁
          injection h₂ with h₃
          subst h₃
          exact Or.inl rfl
        · exact Or.inr hm
    | thread b =>
      have hstep : cachedList ((k₂, FileEntry.thread b) :: rest)
          = cachedList rest := rfl
      rw [hstep, ih, List.mem_cons]
      constructor
      · exact Or.inr
      · rintro (heq | hm)
        · rw [Prod.mk.injEq] at heq
          exact FileEntry.noConfusion heq.2
        · exact hm

theorem cachedList_keys_sublist (files : List (String × FileEntry)) :
    List.Sublist ((cachedList files).map Prod.fst) (files.map Prod.fst) := by
  induction files with
  | nil => simp [cachedList]
  | cons kv rest ih =>
    obtain ⟨k₂, e⟩ := kv
    cases e with
    | cached g => simpa [cachedList] using ih.cons₂ k₂
    | thread b => simpa [cachedList] using ih.cons k₂

theorem nodup_keys_eq {α β : Type} [DecidableEq α] {files : List (α × β)}
    (h : (files.map Prod.fst).Nodup) {k : α} {a b : β}
    (ha : (k, a) ∈ files) (hb : (k, b) ∈ files) : a = b := by
  induction files with
  | nil => cases ha
  | cons kv rest ih =>
    rw [List.map_cons, List.nodup_cons] at h
    obtain ⟨hk, hrest⟩ := h
    rcases List.mem_cons.mp ha with ha₁ | ha₂ <;>
      rcases List.mem_cons.mp hb with hb₁ | hb₂
    · rw [← hb₁] at ha₁
      exact congrArg Prod.snd ha₁
    · exact absurd (List.mem_map_of_mem Prod.fst hb₂)
        (by rw [← ha₁] at hk; exact hk)
    · exact absurd (List.mem_map_of_mem Prod.fst ha₂)
        (by rw [← hb₁] at hk; exact hk)
    · exact ih hrest ha₂ hb₂

/-- C6 as amended: for a _files map with distinct keys, _evict_lfu with an
anticipated download size never evicts an in-flight Thread entry; it stops
with either the budget restored (remaining cached size plus anticipated
size within max_size) or the remaining cached size zero (the code's loop
guard is existing_size > 0, not cache emptiness); every evicted entry has
lexicographically minimal (n_hits, size) relative to every kept cached
entry (fewest n_hits first, ties broken by smaller size); each eviction
happens only while the budget is exceeded; and every evicted entry's key
is removed from the map (its path is the file unlinked from disk). -/
theorem evict_lfu_amended (files : List (String × FileEntry)) (fs ms : Nat)
    (hkeys : (files.map Prod.fst).Nodup) :
    (∀ (k : String) (exc : Bool), (k, FileEntry.thread exc) ∈ files →
        (k, FileEntry.thread exc) ∈ (_evict_lfu files fs ms).1)
    ∧ (sumSize (cachedList (_evict_lfu files fs ms).1) + fs ≤ ms
        ∨ sumSize (cachedList (_evict_lfu files fs ms).1) = 0)
    ∧ (∀ e ∈ (_evict_lfu files fs ms).2, ∀ (k : String) (g : _CachedFile),
        (k, FileEntry.cached g) ∈ (_evict_lfu files fs ms).1 →
        e.2.n_hits < g.n_hits ∨ (e.2.n_hits = g.n_hits ∧ e.2.size ≤ g.size))
    ∧ (∀ i < (_evict_lfu files fs ms).2.length,
        ms < sumSize ((_evict_lfu files fs ms).2.drop i)
          + sumSize (cachedList (_evict_lfu files fs ms).1) + fs)
    ∧ (∀ e ∈ (_evict_lfu files fs ms).2, ∀ v : FileEntry,
        (e.1, v) ∉ (_evict_lfu files fs ms).1) := by
  simp only [_evict_lfu]
  set sorted := pySort (fun kf => kf.2.n_hits)
    (pySort (fun kf => kf.2.size) (cachedList files)) with hsorted
  set ev := (evictLoop fs ms sorted).1 with hev
  set rem := (evictLoop fs ms sorted).2 with hrem
  set newFiles := ev.foldl (fun m kf => aremove m kf.1) files with hnew
  have hperm : List.Perm sorted (cachedList files) :=
    (pySort_perm _ _).trans (pySort_perm _ _)
  have hsplit : ev ++ rem = sorted := evictLoop_split fs ms sorted
  have hkeysCL : ((cachedList files).map Prod.fst).Nodup :=
    List.Nodup.sublist (cachedList_keys_sublist files) hkeys
  have hkeysSorted : (sorted.map Prod.fst).Nodup :=
    ((hperm.map Prod.fst).nodup_iff).mpr hkeysCL
  have hkeysEvRem : ((ev ++ rem).map Prod.fst).Nodup := by
    rw [hsplit]; exact hkeysSorted
  have hdisj : ∀ e ∈ ev, ∀ r ∈ rem, e.1 ≠ r.1 := by
    intro e he r hr heq
    rw [List.map_append] at hkeysEvRem
    refine (List.nodup_append.mp hkeysEvRem).2.2
      (List.mem_map_of_mem Prod.fst he) ?_
    rw [heq]
    exact List.mem_map_of_mem Prod.fst hr
  have hevCL : ∀ e ∈ ev, e ∈ cachedList files := by
    intro e he
    refine hperm.mem_iff.mp ?_
    rw [← hsplit]
    exact List.mem_append_left rem he
  have hthread : ∀ (k : String) (exc : Bool),
      (k, FileEntry.thread exc) ∈ files →
      (k, FileEntry.thread exc) ∈ newFiles := by
    intro k exc hm
    rw [hnew, mem_foldl_aremove]
    refine ⟨hm, ?_⟩
    intro e he heq
    have hec : (e.1, FileEntry.cached e.2) ∈ files :=
      (mem_cachedList files e.1 e.2).mp (hevCL e he)
    have heqk : (e.1, FileEntry.thread exc) ∈ files := by
      rw [← heq]; exact hm
    exact FileEntry.noConfusion (nodup_keys_eq hkeys heqk hec)
  have hcachedNew : ∀ (k : String) (g : _CachedFile),
      ((k, g) ∈ cachedList newFiles ↔ (k, g) ∈ rem) := by
    intro k g
    rw [mem_cachedList, hnew, mem_foldl_aremove, ← mem_cachedList]
    constructor
    · rintro ⟨hm, hne⟩
      have hsortmem : (k, g) ∈ ev ++ rem := by
        rw [hsplit]; exact hperm.mem_iff.mpr hm
      rcases List.mem_append.mp hsortmem with hevm | hremm
      · exact absurd rfl (hne (k, g) hevm)
      · exact hremm
    · intro hremm
      have hsortmem : (k, g) ∈ sorted := by
        rw [← hsplit]; exact List.mem_append_right ev hremm
      refine ⟨hperm.mem_iff.mp hsortmem, ?_⟩
      intro e he heq
      exact hdisj e he (k, g) hremm heq.symm
  have hnodupNewPairs : (cachedList newFiles).Nodup := by
    have h₁ : (newFiles.map Prod.fst).Nodup :=
      List.Nodup.sublist ((foldl_aremove_sublist ev files).map Prod.fst) hkeys
    exact List.Nodup.of_map Prod.fst
      (List.Nodup.sublist (cachedList_keys_sublist newFiles) h₁)
  have hnodupRemPairs : rem.Nodup := by
    rw [List.map_append] at hkeysEvRem
    exact List.Nodup.of_map Prod.fst (List.nodup_append.mp hkeysEvRem).2.1
  have hpermNew : List.Perm (cachedList newFiles) rem :=
    (List.perm_ext_iff_of_nodup hnodupNewPairs hnodupRemPairs).mpr
      (by rintro ⟨k, g⟩; exact hcachedNew k g)
  have hsum : sumSize (cachedList newFiles) = sumSize rem := by
    unfold sumSize
    exact (hpermNew.map _).sum_eq
  refine ⟨hthread, ?_, ?_, ?_, ?_⟩
  · rw [hsum]
    exact evictLoop_stop fs ms sorted
  · intro e he k g hkg
    have hremm : (k, g) ∈ rem :=
      (hcachedNew k g).mp ((mem_cachedList newFiles k g).mpr hkg)
    have hPW := evict_sorted_lex (cachedList files)
    rw [← hsorted, ← hsplit] at hPW
    exact (List.pairwise_append.mp hPW).2.2 e he (k, g) hremm
  · intro i hi
    rw [hsum]
    exact evictLoop_cond fs ms sorted i hi
  · intro e he v hmem
    rw [hnew, mem_foldl_aremove] at hmem
    exact hmem.2 e he rfl

/-- C6 counterexample to the claim as frozen: with one cached file of size
zero, max_size 0 and anticipated size 1, the budget is violated and a
cached file remains, yet the loop stops (its guard is existing_size > 0,
not cache non-emptiness), so eviction does not continue "until the budget
holds or no cached files remain" as the claim states. -/
theorem evict_lfu_zero_size_counterexample :
    (_evict_lfu [("k", FileEntry.cached ⟨"p", 0, 5⟩)] 1 0).1
      = [("k", FileEntry.cached ⟨"p", 0, 5⟩)]
    ∧ ¬(sumSize (cachedList
          (_evict_lfu [("k", FileEntry.cached ⟨"p", 0, 5⟩)] 1 0).1) + 1 ≤ 0)
    ∧ cachedList (_evict_lfu [("k", FileEntry.cached ⟨"p", 0, 5⟩)] 1 0).1
        ≠ [] := by
  decide

/-- Witness for C6 as amended at the spec's own example: three 400-byte
files with hit counts 10, 1 and 5, budget 1000, anticipated size 400; the
hit-count-1 entry is evicted first, then the hit-count-5 entry, and the
budget then holds. -/
theorem evict_lfu_amended_witness :
    (([("a", FileEntry.cached ⟨"pa", 400, 10⟩),
       ("b", FileEntry.cached ⟨"pb", 400, 1⟩),
       ("c", FileEntry.cached ⟨"pc", 400, 5⟩)].map Prod.fst).Nodup)
    ∧ (sumSize (cachedList
          (_evict_lfu [("a", FileEntry.cached ⟨"pa", 400, 10⟩),
            ("b", FileEntry.cached ⟨"pb", 400, 1⟩),
            ("c", FileEntry.cached ⟨"pc", 400, 5⟩)] 400 1000).1) + 400 ≤ 1000
        ∨ sumSize (cachedList
            (_evict_lfu [("a", FileEntry.cached ⟨"pa", 400, 10⟩),
              ("b", FileEntry.cached ⟨"pb", 400, 1⟩),
              ("c", FileEntry.cached ⟨"pc", 400, 5⟩)] 400 1000).1) = 0)
    ∧ (_evict_lfu [("a", FileEntry.cached ⟨"pa", 400, 10⟩),
          ("b", FileEntry.cached ⟨"pb", 400, 1⟩),
          ("c", FileEntry.cached ⟨"pc", 400, 5⟩)] 400 1000).2.map Prod.fst
        = ["b", "c"] :=
  ⟨by decide,
   (evict_lfu_amended [("a", FileEntry.cached ⟨"pa", 400, 10⟩),
       ("b", FileEntry.cached ⟨"pb", 400, 1⟩),
       ("c", FileEntry.cached ⟨"pc", 400, 5⟩)] 400 1000 (by decide)).2.1,
   by decide⟩

/-! ## C5 -/

theorem negotiationDecision_eq (version : String) (q : String → ℚ) :
    negotiationDecision version q
      = if jsonQualifies q (json_media_type version) = true then Except.ok true
        else if q (json_media_type version) = 0 ∧ htmlQuality q = 0 then
          Except.error ()
        else Except.ok false := by
  unfold negotiationDecision jsonQualifies
  cases hb : (decide (¬q (json_media_type version) = 0) &&
      (decide (htmlQuality q ≤ q (json_media_type version)) &&
        decide (q "text/html" < q (json_media_type version)))) with
  | true =>
    have hjq : ¬q (json_media_type version) = 0 := by
      simp only [Bool.and_eq_true, decide_eq_true_eq] at hb
      exact hb.1
    have herr : ¬(q (json_media_type version) = 0 ∧ htmlQuality q = 0) :=
      fun hc => hjq hc.1
    simp [herr]
  | false =>
    by_cases herr : q (json_media_type version) = 0 ∧ htmlQuality q = 0 <;>
      simp [herr]

theorem wantsJsonCore_none (version : String) (q : String → ℚ) :
    wantsJsonCore version none q
      = if jsonQualifies q (json_media_type version) = true then Except.ok true
        else if q (json_media_type version) = 0 ∧ htmlQuality q = 0 then
          Except.error ()
        else Except.ok false :=
  negotiationDecision_eq version q

theorem wantsJsonCore_empty (version : String) (q : String → ℚ) :
    wantsJsonCore version (some "") q = wantsJsonCore version none q := by
  unfold wantsJsonCore
  simp

theorem wantsJsonCore_fmt_json (version f : String) (q : String → ℚ)
    (h0 : ¬f = "") (h1 : f = json_media_type version) :
    wantsJsonCore version (some f) q = Except.ok true := by
  subst h1
  unfold wantsJsonCore
  simp [h0]

theorem wantsJsonCore_fmt_html (version f : String) (q : String → ℚ)
    (h0 : ¬f = "") (h1 : ¬f = json_media_type version) (h2 : isHtmlKey f) :
    wantsJsonCore version (some f) q = Except.ok false := by
  unfold wantsJsonCore
  simp [h0, h1, h2]

theorem wantsJsonCore_fallthrough (version f : String) (q : String → ℚ)
    (h0 : ¬f = "") (h1 : ¬f = json_media_type version) (h2 : ¬isHtmlKey f) :
    wantsJsonCore version (some f) q = wantsJsonCore version none q := by
  unfold wantsJsonCore
  simp [h0, h1, h2]

theorem wantsJson_none_eq (version : String) (q : String → ℚ) :
    wantsJson version none q
      = if (specJsonKeys version).any (jsonQualifies q) = true then
          Except.ok true
        else if q (json_media_type version) = 0 ∧ htmlQuality q = 0 then
          Except.error ()
        else Except.ok false := by
  unfold wantsJson
  by_cases hv : version = KNOWN_LATEST_JSON_VERSION
  · subst hv
    rw [if_pos rfl, wantsJsonCore_none "latest",
      wantsJsonCore_none KNOWN_LATEST_JSON_VERSION]
    by_cases hql : jsonQualifies q (json_media_type "latest") = true
    · simp [hql, specJsonKeys, KNOWN_LATEST_JSON_VERSION]
    · by_cases herrl : q (json_media_type "latest") = 0 ∧ htmlQuality q = 0
      · by_cases hqv : jsonQualifies q
            (json_media_type KNOWN_LATEST_JSON_VERSION) = true <;>
          simp [hql, herrl, hqv, specJsonKeys, KNOWN_LATEST_JSON_VERSION]
      · by_cases hqv : jsonQualifies q
            (json_media_type KNOWN_LATEST_JSON_VERSION) = true <;>
          simp [hql, herrl, hqv, specJsonKeys, KNOWN_LATEST_JSON_VERSION]
  · rw [if_neg hv, wantsJsonCore_none]
    by_cases hqv : jsonQualifies q (json_media_type version) = true <;>
      simp [hqv, specJsonKeys, hv]

theorem json_mem_specJsonKeys (version : String) :
    json_media_type version ∈ specJsonKeys version := by
  unfold specJsonKeys
  by_cases hv : version = KNOWN_LATEST_JSON_VERSION
  · subst hv
    decide
  · simp [hv]

/-- C5 as amended: the request is answered with JSON iff the (truthy)
format argument equals the JSON media-type for the version under
consideration (for v1, the latest JSON media-type also counts), or the
format argument does not decide (absent, empty, or unrecognised) and some
accepted JSON media-type has non-zero quality, at least the maximal HTML
quality, and strictly above the text/html quality; a format argument equal
to one of the three HTML media-types forces HTML regardless of the Accept
header; 406 arises only when the format argument does not decide and both
the JSON quality and the maximal HTML quality are zero.  The second
conjunct is the claim's parenthetical: a uniform Accept such as */*
(every quality 1) yields HTML. -/
theorem wants_json_amended (version : String) (format : Option String)
    (q : String → ℚ) :
    wantsJson version format q = specWantsJsonAmended version format q
    ∧ wantsJson version none (fun _ => 1) = Except.ok false := by
  constructor
  · cases format with
    | none =>
      rw [wantsJson_none_eq]
      rfl
    | some f =>
      by_cases hf0 : f = ""
      · subst hf0
        have hL : wantsJson version (some "") q = wantsJson version none q := by
          unfold wantsJson
          by_cases hv : version = KNOWN_LATEST_JSON_VERSION
          · rw [if_pos hv, if_pos hv, wantsJsonCore_empty, wantsJsonCore_empty]
          · rw [if_neg hv, if_neg hv, wantsJsonCore_empty]
        have hR : specWantsJsonAmended version (some "") q
            = specWantsJsonAmended version none q := by
          unfold specWantsJsonAmended
          simp
        rw [hL, hR, wantsJson_none_eq]
        rfl
      · by_cases hjk : f ∈ specJsonKeys version
        · have hR : specWantsJsonAmended version (some f) q = Except.ok true := by
            unfold specWantsJsonAmended
            simp [hf0, hjk]
          rw [hR]
          unfold wantsJson
          by_cases hv : version = KNOWN_LATEST_JSON_VERSION
          · subst hv
            rw [if_pos rfl]
            have hjk₂ : f = json_media_type "latest"
                ∨ f = json_media_type "v1" := by
              simpa [specJsonKeys, KNOWN_LATEST_JSON_VERSION] using hjk
            rcases hjk₂ with rfl | rfl
            · rw [wantsJsonCore_fmt_json "latest" _ q hf0 rfl]
            · have hne₁ : ¬json_media_type "v1" = json_media_type "latest" := by
                decide
              have hnh : ¬isHtmlKey (json_media_type "v1") := by decide
              rw [wantsJsonCore_fallthrough "latest" _ q hf0 hne₁ hnh]
              have hcore : wantsJsonCore KNOWN_LATEST_JSON_VERSION
                  (some (json_media_type "v1")) q = Except.ok true :=
                wantsJsonCore_fmt_json _ _ q hf0 rfl
              cases hres : wantsJsonCore "latest" none q with
              | ok b =>
                cases b with
                | true => rfl
                | false => exact hcore
              | error e => exact hcore
          · rw [if_neg hv]
            have hf : f = json_media_type version := by
              simpa [specJsonKeys, hv] using hjk
            exact wantsJsonCore_fmt_json version f q hf0 hf
        · have hne : ¬f = json_media_type version := by
            intro he
            exact hjk (by rw [he]; exact json_mem_specJsonKeys version)
          by_cases hh : isHtmlKey f
          · have hR : specWantsJsonAmended version (some f) q
                = Except.ok false := by
              unfold specWantsJsonAmended
              simp [hf0, hjk, hh]
            rw [hR]
            unfold wantsJson
            by_cases hv : version = KNOWN_LATEST_JSON_VERSION
            · subst hv
              rw [if_pos rfl]
              have hne₂ : ¬f = json_media_type "latest" := by
                intro he
                refine hjk ?_
                rw [he]
                unfold specJsonKeys
                rw [if_pos rfl]
                exact List.mem_cons_self _ _
              rw [wantsJsonCore_fmt_html "latest" f q hf0 hne₂ hh]
              exact wantsJsonCore_fmt_html _ f q hf0 hne hh
            · rw [if_neg hv]
              exact wantsJsonCore_fmt_html version f q hf0 hne hh
          · have hR : specWantsJsonAmended version (some f) q
                = specWantsJsonAmended version none q := by
              unfold specWantsJsonAmended
              simp [hf0, hjk, hh]
            have hL : wantsJson version (some f) q
                = wantsJson version none q := by
              unfold wantsJson
              by_cases hv : version = KNOWN_LATEST_JSON_VERSION
              · subst hv
                have hne₂ : ¬f = json_media_type "latest" := by
                  intro he
                  refine hjk ?_
                  rw [he]
                  unfold specJsonKeys
                  rw [if_pos rfl]
                  exact List.mem_cons_self _ _
                rw [if_pos rfl, if_pos rfl,
                  wantsJsonCore_fallthrough "latest" f q hf0 hne₂ hh,
                  wantsJsonCore_fallthrough KNOWN_LATEST_JSON_VERSION f q hf0
                    hne hh]
              · rw [if_neg hv, if_neg hv,
                  wantsJsonCore_fallthrough version f q hf0 hne hh]
            rw [hL, hR, wantsJson_none_eq]
            rfl
  · rw [wantsJson_none_eq]
    have hq : ∀ k, jsonQualifies (fun _ => (1 : ℚ)) k = false := by
      intro k
      unfold jsonQualifies htmlQuality
      norm_num
    simp [hq, htmlQuality]

/-- C5 counterexample to the claim as frozen: a request with
format=text/html and an Accept header giving quality 1 to the v1 JSON
media-type and 0 to everything else.  The claim's condition (b) holds
(JSON quality 1 is at least the maximal HTML quality 0 and above the
text/html quality 0), so the claim decides JSON; the code's format
short-circuit answers HTML without consulting the qualities. -/
theorem wants_json_counterexample :
    wantsJson "v1" (some "text/html")
        (fun k => if k = "application/vnd.pypi.simple.v1+json" then 1 else 0)
      = Except.ok false
    ∧ specWantsJsonClaim "v1" (some "text/html")
        (fun k => if k = "application/vnd.pypi.simple.v1+json" then 1 else 0)
      = Except.ok true := by
  constructor
  · rfl
  · unfold specWantsJsonClaim
    split
    · rfl
    · next h => exact absurd (Or.inr ⟨by decide, by decide⟩) h

end Proxpi
